import Mathlib

/-!
Verification of the commit planning engine of the open-plugins repository.

The embedded code is the planning core identified by the specification:

* `split-analyzer.py` (the change-set classifier): `detect_type_from_diff`,
  `extract_scope_from_path`, `detect_mixed_concerns`, `analyze`;
* `commit-planner.py` (the graph builder and the sequencer):
  `detect_dependencies`, `has_import_dependency`, `build_dependency_graph`,
  `topological_sort`, `create_sequence`.

External effects are modelled as explicit parameters: the output of
`git show :<path>` becomes a function `gitShow : String → String`, the output
of `git diff <path>` becomes `diffOf : String → String`, and the list of
changed files (which the Python script obtains as `list(set)`, in an
enumeration order the language does not fix across processes) becomes an
explicit `files : List String` argument.

Python exceptions (the two TypeErrors the planner can raise, and the fatal
`sys.exit(1)` on a circular dependency) are modelled with `Except String`.
-/

/-! ## String helpers (Python semantics)

The built-in `String` functions of this Lean version walk UTF-8 byte
positions with well-founded recursion, which the kernel cannot unfold when
checking `decide`/`rfl` evaluations on concrete inputs.  The helpers below
re-implement the handful of Python string operations the scripts use with
structural recursion over `String.data : List Char`, so that every embedded
function evaluates inside the kernel. -/

/-- Python substring containment `needle in hay`.  The empty needle is
contained in every string, as in Python. -/
def strContains (hay needle : String) : Bool :=
  let h := hay.toList
  (List.range (h.length + 1)).any fun i => needle.toList.isPrefixOf (h.drop i)

/-- Python `str.endswith`. -/
def endsWithP (s suffix : String) : Bool := suffix.toList.isSuffixOf s.toList

/-- Python `str.startswith`. -/
def startsWithP (s pre : String) : Bool := pre.toList.isPrefixOf s.toList

def splitCharGo (c : Char) : List Char → List Char → List (List Char)
  | [], acc => [acc.reverse]
  | x :: xs, acc =>
    if x = c then acc.reverse :: splitCharGo c xs []
    else splitCharGo c xs (x :: acc)

/-- Python `str.split(c)` for a one-character separator (the scripts only
split on "\n", "/" and "."). -/
def splitChar (c : Char) (s : String) : List String :=
  (splitCharGo c s.toList []).map String.mk

/-- Python `sep.join(parts)`. -/
def joinSep (sep : String) : List String → String
  | [] => ""
  | [x] => x
  | x :: xs => x ++ sep ++ joinSep sep xs

/-- Python `str.lower` (the scripts only lower ASCII). -/
def strLower (s : String) : String := String.mk (s.toList.map Char.toLower)

/-- One fuel-indexed step list of Python `str.replace` (left-to-right,
non-overlapping).  The fuel is the length of the scanned list; every step
consumes at least one character when the pattern is non-empty, which is the
case for every pattern the scripts use. -/
def replaceGo (pat repl : List Char) : Nat → List Char → List Char
  | 0, l => l
  | _ + 1, [] => []
  | fuel + 1, x :: xs =>
    if pat.isPrefixOf (x :: xs) then
      repl ++ replaceGo pat repl fuel ((x :: xs).drop pat.length)
    else x :: replaceGo pat repl fuel xs

/-- Python `str.replace(pat, repl)` for non-empty `pat`. -/
def strReplace (s pat repl : String) : String :=
  String.mk (replaceGo pat.toList repl.toList s.toList.length s.toList)

/-- A single-quote character, built numerically. -/
def pyQuote : String := (Char.ofNat 39).toString

/-! ## Data model: commit descriptors

`commit-planner.py` consumes JSON dicts with keys `type`, `scope`, `subject`,
`files`.  Accesses in the source are a direct subscript for the type key
(always present), `.get` for the scope key (may be absent, hence `Option`),
and `.get` with a string default for the subject key and a list default for
the files key (both defaults folded into the fields here). -/

structure Commit where
  type : String
  scope : Option String
  subject : String
  files : List String
deriving DecidableEq, Inhabited

/-- TYPE_PRIORITY dict of commit-planner.py (lines 23-34). -/
def TYPE_PRIORITY (t : String) : Option Nat :=
  if t = "feat" then some 1
  else if t = "fix" then some 2
  else if t = "refactor" then some 3
  else if t = "perf" then some 4
  else if t = "test" then some 5
  else if t = "docs" then some 6
  else if t = "style" then some 7
  else if t = "chore" then some 8
  else if t = "ci" then some 9
  else if t = "build" then some 10
  else none

/-- The sort key of the ready queue:
`TYPE_PRIORITY.get` of the type of `commits[x]`, with default 99
(line 154). -/
def prio (commits : List Commit) (x : Nat) : Nat :=
  (TYPE_PRIORITY ((commits.getD x default).type)).getD 99

/-! ## The sequencer: `topological_sort` (commit-planner.py lines 140-173)

The Python loop re-sorts the ready deque by type priority on every iteration
with `list.sort`, which is a stable ascending sort.  `insPrio`/`sortByKey`
below is a stable insertion sort computing the same list: an element is
inserted before the first element whose key is not smaller, so elements with
equal keys keep their relative order. -/

def insPrio (key : Nat → Nat) (x : Nat) : List Nat → List Nat
  | [] => [x]
  | y :: ys => if key x ≤ key y then x :: y :: ys else y :: insPrio key x ys

def sortByKey (key : Nat → Nat) : List Nat → List Nat
  | [] => []
  | x :: xs => insPrio key x (sortByKey key xs)

/-- Lines 160-166 of commit-planner.py: after popping `node`, iterate over
`other_node in range(len(commits))`; when `node` is in the dependency set of
`other_node`, remove it (the code decrements `in_degree[other_node]` in
lockstep, so `in_degree[other_node]` is always the cardinality of the set)
and append `other_node` to the queue when its set becomes empty.
Returns the updated dependency map and the list of appended nodes. -/
def pnStep (node : Nat) (acc : (Nat → Finset Nat) × List Nat) (other : Nat) :
    (Nat → Finset Nat) × List Nat :=
  if node ∈ acc.1 other then
    let d : Nat → Finset Nat :=
      fun x => if x = other then (acc.1 other).erase node else acc.1 x
    if (acc.1 other).erase node = ∅ then (d, acc.2 ++ [other])
    else (d, acc.2)
  else acc

def processNode (n node : Nat) (deps : Nat → Finset Nat) :
    (Nat → Finset Nat) × List Nat :=
  (List.range n).foldl (pnStep node) (deps, [])

/-- The while-loop of `topological_sort` (lines 151-166), fuel-indexed.
Each loop iteration pops exactly one node and a node can enter the queue at
most once (it is appended only when its in-degree reaches zero, which happens
at most once), so `len(commits)` iterations always suffice; the fuel-exhausted
branch is unreachable when the loop is started with fuel `commits.length`
(this is proved below, see `kahnLoop_spec`). -/
def kahnLoop (commits : List Commit) :
    Nat → List Nat → (Nat → Finset Nat) → List Nat →
    List Nat × (Nat → Finset Nat)
  | 0, _, deps, result => (result, deps)
  | fuel + 1, queue, deps, result =>
    match sortByKey (prio commits) queue with
    | [] => (result, deps)
    | node :: rest =>
      let pr := processNode commits.length node deps
      kahnLoop commits fuel (rest ++ pr.2) pr.1 (result ++ [node])

/-- `topological_sort(commits, dependencies)` (lines 140-166): the Python dict
`dependencies` maps an index to the set of indices it depends on
(`dependencies[d]` contains `p` when the edge (p, d) is present); it is a
`defaultdict(set)`, modelled as a total function into `Finset Nat`.
The function destructively mutates the dict, so the embedding returns the
final state of the map together with the emitted order. -/
def topological_sort (commits : List Commit) (dependencies : Nat → Finset Nat) :
    List Nat × (Nat → Finset Nat) :=
  let n := commits.length
  kahnLoop commits n
    ((List.range n).filter fun node => (dependencies node).card = 0)
    dependencies []

/-- The message printed at line 170 before `sys.exit(1)`.  It is a fixed
string: the unemitted indices are not part of the report. -/
def circularErr : String := "Error: Circular dependency detected"

/-- `topological_sort` including the cycle check of lines 168-173:
`sys.exit(1)` when fewer positions than commits were emitted. -/
def topoSortChecked (commits : List Commit) (dependencies : Nat → Finset Nat) :
    Except String (List Nat) :=
  let r := topological_sort commits dependencies
  if r.1.length = commits.length then .ok r.1 else .error circularErr

/-- The dependency map induced by an explicit edge list: `depsOf edges d` is
the set of producers `p` with an edge `(p, d)`. -/
def depsOf (edges : List (Nat × Nat)) (d : Nat) : Finset Nat :=
  ((edges.filter fun e => e.2 = d).map Prod.fst).toFinset

/-! ## The graph builder (commit-planner.py lines 76-138) -/

/-- Model of the TypeError Python raises at line 88 when
the scope of commit1 is `None`: `None in <str>` is a type error. -/
def typeErrNone : String :=
  "TypeError: in requires string as left operand, not NoneType"

/-- The module path of line 116: replace every slash by a dot, then delete
every occurrence of the substrings .py, .js and .ts. -/
def module_of (source_file : String) : String :=
  strReplace (strReplace (strReplace (strReplace source_file "/" ".") ".py" "") ".js" "") ".ts" ""

/-- `has_import_dependency` (lines 109-125): reads the staged content of the
target file via `git show :<target>` (modelled by `gitShow` applied to the
literal git argument) and looks for one of three import patterns of the
module path derived from the source file. -/
def has_import_dependency (gitShow : String → String)
    (source_file target_file : String) : Bool :=
  let content := gitShow (":" ++ target_file)
  let m := module_of source_file
  strContains content ("import " ++ m) ||
  strContains content ("from " ++ m) ||
  strContains content ("require(" ++ pyQuote ++ m)

/-- The import scan of lines 98-105: any file of commit2 importing any file
of commit1.  The Python code iterates over `set(...)` of the file lists; the
resulting boolean does not depend on the enumeration order. -/
def importCheck (gitShow : String → String) (c1 c2 : Commit) : Bool :=
  c2.files.any fun f2 => c1.files.any fun f1 => has_import_dependency gitShow f1 f2

/-- Rules 3 (fix-after-feature, lines 92-95) and 4 (imports) of
`detect_dependencies`; reached when rules 1 and 2 did not return. -/
def detectRest (gitShow : String → String) (c1 c2 : Commit) : Bool :=
  if c1.type = "feat" ∧ c2.type = "fix" ∧ c1.scope = c2.scope then true
  else importCheck gitShow c1 c2

/-- `detect_dependencies(commit1, commit2)` (lines 76-107): does commit2
depend on commit1?  Rule 2 (docs-after-feature, line 88) evaluates
whether the scope string of commit1 occurs in the subject of commit2,
which evaluates `None in <str>` when the scope is absent and so raises a
TypeError when the scope is absent; `None == None` in rules 1 and 3 is `True`,
matching `Option` equality. -/
def detect_dependencies (gitShow : String → String) (c1 c2 : Commit) :
    Except String Bool :=
  if c1.type ≠ "test" ∧ c2.type = "test" ∧ c1.scope = c2.scope then .ok true
  else if c1.type = "feat" ∧ c2.type = "docs" then
    match c1.scope with
    | none => .error typeErrNone
    | some s =>
      if strContains c2.subject s then .ok true
      else .ok (detectRest gitShow c1 c2)
  else .ok (detectRest gitShow c1 c2)

/-- `build_dependency_graph(commits)` (lines 127-138): for every ordered pair
`i ≠ j` in ascending nested iteration order, when commit j depends on
commit i add i to `graph[j]`.  The graph is a `defaultdict(set)`.  There is
no contradiction check: when both directions are detected, both are added. -/
def addEdgeStep (gitShow : String → String) (commits : List Commit) (i : Nat)
    (g : Nat → Finset Nat) (j : Nat) : Except String (Nat → Finset Nat) :=
  if i = j then .ok g
  else
    match detect_dependencies gitShow (commits.getD i default)
        (commits.getD j default) with
    | .error e => .error e
    | .ok true => .ok fun x => if x = j then insert i (g x) else g x
    | .ok false => .ok g

def buildInner (gitShow : String → String) (commits : List Commit) (i : Nat)
    (g : Nat → Finset Nat) : Except String (Nat → Finset Nat) :=
  (List.range commits.length).foldlM (addEdgeStep gitShow commits i) g

def build_dependency_graph (gitShow : String → String) (commits : List Commit) :
    Except String (Nat → Finset Nat) :=
  (List.range commits.length).foldlM
    (fun g i => buildInner gitShow commits i g)
    (fun _ => (∅ : Finset Nat))

/-! ## `create_sequence` (commit-planner.py lines 175-203) -/

structure PlanEntry where
  commit : Commit
  order : Nat
  commit_id : Nat
  original_id : Nat
  can_execute : String
deriving DecidableEq

/-- `create_sequence(commits)`: build the graph, sort it (the sort mutates
the dict; the annotations below read the mutated dict), then annotate.  The
`else` branch annotates with the minimum position (1-based `order.index`)
among the direct predecessors recorded in the post-sort dict. -/
def create_sequence (gitShow : String → String) (commits : List Commit) :
    Except String (List PlanEntry) :=
  match build_dependency_graph gitShow commits with
  | .error e => .error e
  | .ok dependencies =>
    let st := topological_sort commits dependencies
    if st.1.length = commits.length then
      .ok <| st.1.enum.map fun p =>
        let commit_idx := p.2
        let deps := st.2 commit_idx
        { commit := commits.getD commit_idx default
          order := p.1 + 1
          commit_id := commit_idx + 1
          original_id := commit_idx
          can_execute :=
            if h : deps = ∅ then "now"
            else "after commit " ++
              toString ((deps.image fun d => st.1.indexOf d + 1).min'
                ((Finset.nonempty_of_ne_empty h).image _)) }
    else .error circularErr

/-! ## The classifier (split-analyzer.py) -/

def docExts : List String := [".md", ".txt", ".rst", ".adoc"]
def testMarkers : List String := ["test/", "tests/", "spec/", "__tests__", ".test.", ".spec."]
def ciMarkers : List String := [".github/", ".gitlab-ci", "jenkins", ".circleci"]
def buildSuffixes : List String := ["package.json", "pom.xml", "build.gradle", "Makefile", "CMakeLists.txt"]
def featKw1 : List String := ["function ", "class ", "def ", "const ", "let ", "var "]
def featKw2 : List String := ["new ", "add", "implement", "create"]
def fixKw : List String := ["fix", "bug", "error", "issue", "null", "undefined"]
def refactorKw : List String := ["refactor", "rename", "move", "extract"]
def perfKw : List String := ["performance", "optimize", "cache", "memoize"]

/-- `detect_type_from_diff(file_path, diff)` (split-analyzer.py lines 79-132).
The nested feature check (lines 106-108) returns `feat` only when both
keyword families match; otherwise control falls through to the next checks,
which is what the flattened conjunction computes. -/
def detect_type_from_diff (file_path diff : String) : String :=
  if docExts.any (fun e => endsWithP file_path e) then "docs"
  else if testMarkers.any (fun p => strContains file_path p) then "test"
  else if ciMarkers.any (fun p => strContains file_path p) then "ci"
  else if buildSuffixes.any (fun e => endsWithP file_path e) then "build"
  else if diff = "" then "chore"
  else
    let added := (splitChar (Char.ofNat 10) diff).filter fun l =>
      startsWithP l "+" && !(startsWithP l "+++")
    let joined := joinSep " " added
    if (featKw1.any fun k => strContains joined k) &&
       (featKw2.any fun k => strContains joined k) then "feat"
    else
      let jl := strLower joined
      if fixKw.any (fun k => strContains jl k) then "fix"
      else if refactorKw.any (fun k => strContains jl k) then "refactor"
      else if perfKw.any (fun k => strContains jl k) then "perf"
      else
        let removed := (splitChar (Char.ofNat 10) diff).filter fun l =>
          startsWithP l "-" && !(startsWithP l "---")
        if added.length = removed.length then "style"
        else if added.length > removed.length * 2 then "feat"
        else "chore"

def skipDirs : List String := ["src", "lib", "app", "packages", "tests", "test"]

/-- The scan of `extract_scope_from_path` over the path parts. -/
def scopeGo : List String → String
  | [] => "root"
  | p :: rest =>
    if p ∉ skipDirs ∧ p ≠ "." ∧ p ≠ ".." then
      (splitChar (Char.ofNat 46) p).getD 0 ""
    else scopeGo rest

/-- `extract_scope_from_path(file_path)` (lines 134-147): first path part not
among the skipped container directories, with its extension removed
(the part split at dots, first piece; the split is never empty, so the
index cannot fail). -/
def extract_scope_from_path (file_path : String) : String :=
  scopeGo (splitChar (Char.ofNat 47) file_path)

/-- `defaultdict(list)` keyed in insertion order, as Python dicts are:
append `v` to the bucket of `k`, creating the bucket at the end on first
occurrence of `k`. -/
def addToGroup (m : List (String × List String)) (k v : String) :
    List (String × List String) :=
  match m with
  | [] => [(k, [v])]
  | (k0, vs) :: rest =>
    if k0 = k then (k0, vs ++ [v]) :: rest else (k0, vs) :: addToGroup rest k v

def keysOf (m : List (String × List String)) : List String := m.map Prod.fst

/-- The per-file accumulation loop of `analyze` (lines 185-195), producing the
`self.types` and `self.scopes` dicts. -/
def collectGroups (diffOf : String → String) (files : List String) :
    List (String × List String) × List (String × List String) :=
  files.foldl
    (fun acc f =>
      (addToGroup acc.1 (detect_type_from_diff f (diffOf f)) f,
       addToGroup acc.2 (extract_scope_from_path f) f))
    ([], [])

/-- Model of the TypeError raised at lines 166-167 of split-analyzer.py:
`set(self.scopes[scope] for scope in ...)` hashes lists of paths, which is a
type error as soon as the generator yields anything. -/
def typeErrList : String := "TypeError: unhashable type: list"

/-- `detect_mixed_concerns` (lines 149-172).  The first two concerns compare
type keys.  The test/implementation comparison builds two sets whose elements
are the path lists `self.scopes[scope]`; since lists are unhashable, the
`set(...)` call raises a TypeError whenever its generator is non-empty:
first for `test_scopes` (some scope key containing "test"), then for
`impl_scopes` (some scope key not containing "test").  Only when both
generators are empty (no scope keys at all) does the comparison proceed, and
then both sets are empty and no concern is appended. -/
def detect_mixed_concerns (types scopes : List (String × List String)) :
    Except String (List String) :=
  let concerns :=
    (if "feat" ∈ keysOf types ∧ "refactor" ∈ keysOf types then
      ["Feature implementation mixed with refactoring"] else []) ++
    (if "feat" ∈ keysOf types ∧ "style" ∈ keysOf types then
      ["Feature implementation mixed with style changes"] else [])
  if "test" ∈ keysOf types then
    if (keysOf scopes).any (fun s => strContains s "test") then .error typeErrList
    else if (keysOf scopes).any (fun s => !(strContains s "test")) then .error typeErrList
    else .ok concerns
  else .ok concerns

structure Metrics where
  file_count : Nat
  types_detected : List String
  type_counts : List (String × Nat)
  scopes_detected : List String
  scope_counts : List (String × Nat)
  concerns : List String
  threshold : Nat
deriving DecidableEq

/-- `analyze` (split-analyzer.py lines 174-244).  The Python method returns
`should_split`, the reasons joined with semicolons, and `metrics`; the
embedding keeps the
`reasons` list itself (one entry per triggered rule, in the fixed order of
checks 1-4), from which the script derives the joined string. -/
def analyze (diffOf : String → String) (threshold : Nat) (files : List String) :
    Except String (Bool × List String × Metrics) :=
  if files = [] then
    .ok (false, ["No changes detected"], ⟨0, [], [], [], [], [], threshold⟩)
  else
    let g := collectGroups diffOf files
    let types := g.1
    let scopes := g.2
    let r1 :=
      if types.length > 1 then
        ["Multiple types detected: " ++ joinSep ", " (keysOf types)]
      else []
    let r2 :=
      if scopes.length > 1 then
        ["Multiple scopes detected: " ++ joinSep ", " (keysOf scopes)]
      else []
    let r3 :=
      if files.length > threshold then
        ["Large change: " ++ toString files.length ++ " files (threshold: " ++
          toString threshold ++ ")"]
      else []
    match detect_mixed_concerns types scopes with
    | .error e => .error e
    | .ok concerns =>
      let r4 :=
        if concerns ≠ [] then ["Mixed concerns: " ++ joinSep "; " concerns]
        else []
      let reasons := r1 ++ r2 ++ r3 ++ r4
      .ok (decide (reasons ≠ []), reasons,
        ⟨files.length, keysOf types, types.map (fun p => (p.1, p.2.length)),
         keysOf scopes, scopes.map (fun p => (p.1, p.2.length)),
         concerns, threshold⟩)

/-! ## Concrete planning inputs used in the claim instances -/

/-- A content provider returning the empty string for every lookup (an empty
diff / empty staged content). -/
def showNil : String → String := fun _ => ""

/-- Three feature commits; descriptor 0 depends on descriptor 1. -/
def commitsC3 : List Commit :=
  [⟨"feat", none, "a", []⟩, ⟨"feat", none, "b", []⟩, ⟨"feat", none, "c", []⟩]

def deps0C3 : Nat → Finset Nat := fun x => if x = 0 then {1} else ∅

/-- A feature descriptor without a scope, and a docs descriptor: the pair the
docs-after-feature rule evaluates. -/
def c5a : Commit := ⟨"feat", none, "add feature", []⟩
def c5b : Commit := ⟨"docs", none, "add docs", []⟩

/-- Staged contents in which a.py and b.py import each other. -/
def showCE : String → String := fun s =>
  if s = ":b.py" then "import a" else if s = ":a.py" then "import b" else ""

def cc0 : Commit := ⟨"chore", none, "s0", ["a.py"]⟩
def cc1 : Commit := ⟨"chore", none, "s1", ["b.py"]⟩

/-- Scenario A of the specification: implementation plus its test. -/
def filesA : List String := ["src/auth/login.ts", "src/auth/login.test.ts"]

/-- Diff provider for Scenario A: the implementation file gains a constant
whose added line carries feature vocabulary; the test file diff is empty
(its type is decided by the path alone). -/
def diffA : String → String := fun p =>
  if p = "src/auth/login.ts" then "+const addUser = create()" else ""

/-- A feature commit and the test commit of the same scope. -/
def commits8 : List Commit :=
  [⟨"feat", some "auth", "add auth", []⟩, ⟨"test", some "auth", "test auth", []⟩]

def deps8 : Nat → Finset Nat := fun x => if x = 1 then {0} else ∅

/-- Two and three chore commits for the cycle instances. -/
def commitsA2 : List Commit := [⟨"chore", none, "x", []⟩, ⟨"chore", none, "y", []⟩]
def commitsB3 : List Commit :=
  [⟨"chore", none, "x", []⟩, ⟨"chore", none, "y", []⟩, ⟨"chore", none, "z", []⟩]

/-- A feature, a fix and a test commit chained by two edges. -/
def commitsW : List Commit :=
  [⟨"feat", some "auth", "add auth", []⟩, ⟨"fix", some "auth", "fix auth", []⟩,
   ⟨"test", some "auth", "test auth", []⟩]

def edgesW : List (Nat × Nat) := [(0, 1), (1, 2)]

/-- Two feature commits with no dependencies at all. -/
def commitsTW : List Commit := [⟨"feat", none, "a", []⟩, ⟨"feat", none, "b", []⟩]

/-- The same changed-file set in the two enumeration orders a Python string
set may produce (one documentation file, one code file). -/
def files9a : List String := ["x.md", "a/q.js"]
def files9b : List String := ["a/q.js", "x.md"]

/-- The `should_split` component of a classifier run, when it returned. -/
def verdictOf (r : Except String (Bool × List String × Metrics)) : Option Bool :=
  r.toOption.map fun x => x.1

/-! ## The loop invariant of the sequencer

`KInv n deps0 queue result deps` relates a state of the while-loop to the
original dependency map `deps0`: the emitted `result` is duplicate-free and
in range; the queue holds exactly the in-range nodes that are not yet emitted
but whose every predecessor is emitted; the current map is the original map
minus the emitted nodes (the destructive `remove` of line 163); and every
emitted node had all its predecessors emitted strictly before it. -/
def KInv (n : Nat) (deps0 : Nat → Finset Nat) (queue result : List Nat)
    (deps : Nat → Finset Nat) : Prop :=
  result.Nodup ∧ queue.Nodup ∧ (∀ x ∈ result, x < n) ∧
  (∀ x, x ∈ queue ↔ x < n ∧ x ∉ result ∧ deps0 x ⊆ result.toFinset) ∧
  (∀ x, x < n → deps x = deps0 x \ result.toFinset) ∧
  (∀ k : Fin result.length, deps0 (result.get k) ⊆ (result.take k).toFinset)

/-- The concrete graph the builder returns on the mutual-import pair;
defined by running the builder, so the equation below holds by computation. -/
def gCE : Nat → Finset Nat :=
  match build_dependency_graph showCE [cc0, cc1] with
  | .ok g => g
  | .error _ => fun _ => ∅

deriving instance DecidableEq for Except

/-! ## Properties of the stable queue sort -/

theorem insPrio_perm (key : Nat → Nat) (x : Nat) (l : List Nat) :
    List.Perm (insPrio key x l) (x :: l) := by
  induction l with
  | nil => simp [insPrio]
  | cons y ys ih =>
    simp only [insPrio]
    split
    · exact List.Perm.refl _
    · exact (List.Perm.cons y ih).trans (List.Perm.swap x y ys)

theorem sortByKey_perm (key : Nat → Nat) (l : List Nat) :
    List.Perm (sortByKey key l) l := by
  induction l with
  | nil => simp [sortByKey]
  | cons x xs ih =>
    exact (insPrio_perm key x (sortByKey key xs)).trans (List.Perm.cons x ih)

theorem sublist_insPrio (key : Nat → Nat) (x : Nat) (l : List Nat) :
    List.Sublist l (insPrio key x l) := by
  induction l with
  | nil => simp [insPrio]
  | cons y ys ih =>
    simp only [insPrio]
    split
    · exact List.Sublist.cons x (List.Sublist.refl _)
    · exact List.Sublist.cons₂ y ih

theorem pair_sublist_insPrio (key : Nat → Nat) {x j : Nat} (hkey : key x ≤ key j) :
    ∀ {l : List Nat}, j ∈ l → List.Sublist [x, j] (insPrio key x l) := by
  intro l
  induction l with
  | nil => intro h; cases h
  | cons y ys ih =>
    intro hj
    simp only [insPrio]
    split
    · exact List.Sublist.cons₂ x (List.singleton_sublist.mpr hj)
    · rcases List.mem_cons.mp hj with rfl | hj2
      · omega
      · exact List.Sublist.cons y (ih hj2)

theorem sortByKey_stable_pair (key : Nat → Nat) {i j : Nat}
    (hkey : key i ≤ key j) :
    ∀ {l : List Nat}, List.Sublist [i, j] l → List.Sublist [i, j] (sortByKey key l) := by
  intro l
  induction l with
  | nil => intro h; cases h
  | cons x xs ih =>
    intro hsub
    cases hsub with
    | cons _ h => exact (ih h).trans (sublist_insPrio key x (sortByKey key xs))
    | cons₂ _ h =>
      exact pair_sublist_insPrio key hkey
        ((sortByKey_perm key xs).mem_iff.mpr (List.singleton_sublist.mp h))

theorem pair_sublist_range {i j n : Nat} (hij : i < j) (hj : j < n) :
    List.Sublist [i, j] (List.range n) := by
  induction n with
  | zero => omega
  | succ n ih =>
    rw [List.range_succ]
    by_cases h : j < n
    · exact (ih h).trans (List.sublist_append_left _ _)
    · have hjn : j = n := by omega
      subst hjn
      have : List.Sublist ([i] ++ [j]) (List.range j ++ [j]) :=
        List.Sublist.append (List.singleton_sublist.mpr (List.mem_range.mpr hij))
          (List.Sublist.refl _)
      simpa using this

/-! ## Characterization of `processNode` -/

theorem pnStep_eq (node : Nat) (d : Nat → Finset Nat) (app : List Nat) (h : Nat) :
    pnStep node (d, app) h =
      (fun x => if x = h then (d x).erase node else d x,
       app ++ if node ∈ d h ∧ (d h).erase node = ∅ then [h] else []) := by
  unfold pnStep
  by_cases hm : node ∈ d h
  · by_cases he : (d h).erase node = ∅
    · simp only [hm, he, if_pos, and_self, if_true]
      refine Prod.ext ?_ rfl
      funext x
      by_cases hx : x = h <;> simp [hx, he]
    · simp only [hm, he, if_pos, if_neg, and_false, if_false, List.append_nil]
      refine Prod.ext ?_ rfl
      funext x
      by_cases hx : x = h <;> simp [hx]
  · simp only [hm, if_neg, false_and, if_false, List.append_nil]
    refine Prod.ext ?_ rfl
    funext x
    by_cases hx : x = h
    · subst hx
      simp [Finset.erase_eq_of_not_mem hm]
    · simp [hx]

theorem pnFold_spec (node : Nat) :
    ∀ (l : List Nat), l.Nodup → ∀ (d : Nat → Finset Nat) (app : List Nat),
      (∀ x, (l.foldl (pnStep node) (d, app)).1 x =
        if x ∈ l then (d x).erase node else d x) ∧
      (l.foldl (pnStep node) (d, app)).2 =
        app ++ l.filter fun x =>
          decide (node ∈ d x) && decide ((d x).erase node = ∅) := by
  intro l
  induction l with
  | nil => intro _ d app; simp
  | cons h t ih =>
    intro hnd d app
    have hht : h ∉ t := (List.nodup_cons.mp hnd).1
    have hndt : t.Nodup := (List.nodup_cons.mp hnd).2
    rw [List.foldl_cons, pnStep_eq]
    set d1 : Nat → Finset Nat := fun x => if x = h then (d x).erase node else d x with hd1
    have hagree : ∀ x ∈ t, d1 x = d x := by
      intro x hx
      have : x ≠ h := fun he => hht (he ▸ hx)
      simp [hd1, this]
    obtain ⟨ih1, ih2⟩ := ih hndt d1
      (app ++ if node ∈ d h ∧ (d h).erase node = ∅ then [h] else [])
    constructor
    · intro x
      rw [ih1 x]
      by_cases hxt : x ∈ t
      · rw [hagree x hxt]
        simp [hxt, List.mem_cons.mpr (Or.inr hxt)]
      · by_cases hxh : x = h
        · subst hxh
          simp [hxt, hd1]
        · simp [hxt, hxh, hd1]
    · rw [ih2]
      rw [List.filter_congr (fun x hx => by rw [hagree x hx])]
      rw [List.filter_cons]
      by_cases hc : node ∈ d h ∧ (d h).erase node = ∅
      · simp only [hc, and_self, if_true]
        simp only [decide_eq_true_eq, Bool.and_eq_true, decide_eq_true_iff]
        rw [if_pos (by simp [hc.1, hc.2])]
        simp [List.append_assoc]
      · simp only [hc, if_false]
        rw [if_neg (by simpa using hc)]
        simp [List.append_assoc]

theorem processNode_fst (n node : Nat) (deps : Nat → Finset Nat) (x : Nat) :
    (processNode n node deps).1 x =
      if x < n then (deps x).erase node else deps x := by
  have := (pnFold_spec node (List.range n) (List.nodup_range n) deps []).1 x
  simpa [processNode, List.mem_range] using this

theorem processNode_snd (n node : Nat) (deps : Nat → Finset Nat) :
    (processNode n node deps).2 =
      (List.range n).filter fun x =>
        decide (node ∈ deps x) && decide ((deps x).erase node = ∅) := by
  have := (pnFold_spec node (List.range n) (List.nodup_range n) deps []).2
  simpa [processNode] using this

theorem mem_processNode_snd {n node : Nat} {deps : Nat → Finset Nat} {x : Nat} :
    x ∈ (processNode n node deps).2 ↔
      x < n ∧ node ∈ deps x ∧ (deps x).erase node = ∅ := by
  rw [processNode_snd]
  simp [List.mem_filter, List.mem_range, and_assoc]

theorem sdiff_union_singleton (s t : Finset Nat) (a : Nat) :
    s \ (t ∪ {a}) = (s \ t).erase a := by
  ext x
  simp only [Finset.mem_sdiff, Finset.mem_union, Finset.mem_erase,
    Finset.mem_singleton]
  tauto

theorem KInv_result_closed {n : Nat} {deps0 : Nat → Finset Nat}
    {queue result : List Nat} {deps : Nat → Finset Nat}
    (hI : KInv n deps0 queue result deps) {x : Nat} (hx : x ∈ result) :
    deps0 x ⊆ result.toFinset := by
  obtain ⟨m, hm⟩ := List.mem_iff_get.mp hx
  refine hm ▸ (hI.2.2.2.2.2 m).trans ?_
  intro y hy
  rw [List.mem_toFinset] at hy ⊢
  exact (List.take_sublist _ _).subset hy

theorem KInv_step (commits : List Commit) (deps0 : Nat → Finset Nat)
    {queue result : List Nat} {deps : Nat → Finset Nat} {node : Nat}
    {rest : List Nat}
    (hI : KInv commits.length deps0 queue result deps)
    (hsort : sortByKey (prio commits) queue = node :: rest) :
    KInv commits.length deps0 (rest ++ (processNode commits.length node deps).2)
      (result ++ [node]) (processNode commits.length node deps).1 := by
  obtain ⟨hrn, hqn, hrlt, hqc, hde, hg⟩ := hI
  have hI' : KInv commits.length deps0 queue result deps :=
    ⟨hrn, hqn, hrlt, hqc, hde, hg⟩
  set n := commits.length with hn
  have hperm : List.Perm (node :: rest) queue := by
    rw [← hsort]; exact sortByKey_perm (prio commits) queue
  have hnodeq : node ∈ queue := hperm.mem_iff.mp (List.mem_cons_self _ _)
  have hcons : (node :: rest).Nodup := hperm.nodup_iff.mpr hqn
  have hnr : node ∉ rest := (List.nodup_cons.mp hcons).1
  have hrestnd : rest.Nodup := (List.nodup_cons.mp hcons).2
  have hrestq : ∀ x ∈ rest, x ∈ queue := fun x hx =>
    hperm.mem_iff.mp (List.mem_cons_of_mem _ hx)
  obtain ⟨hnlt, hnres, hn0⟩ := (hqc node).mp hnodeq
  have hdepsnode : deps node = ∅ := by
    rw [hde node hnlt]
    exact Finset.sdiff_eq_empty_iff_subset.mpr hn0
  have hdres : ∀ x ∈ result, x < n → deps x = ∅ := by
    intro x hx hlt
    rw [hde x hlt]
    exact Finset.sdiff_eq_empty_iff_subset.mpr (KInv_result_closed hI' hx)
  have htf : (result ++ [node]).toFinset = result.toFinset ∪ {node} := by
    simp
  have happ : ∀ x, x ∈ (processNode n node deps).2 ↔
      x < n ∧ node ∈ deps x ∧ (deps x).erase node = ∅ :=
    fun x => mem_processNode_snd
  have happfacts : ∀ x ∈ (processNode n node deps).2,
      x < n ∧ x ∉ result ∧ x ≠ node ∧ deps0 x ⊆ result.toFinset ∪ {node} := by
    intro x hx
    obtain ⟨hxlt, hmem, herase⟩ := (happ x).mp hx
    have hxres : x ∉ result := by
      intro hxr
      rw [hdres x hxr hxlt] at hmem
      exact absurd hmem (Finset.not_mem_empty node)
    have hxnode : x ≠ node := by
      intro he
      rw [he, hdepsnode] at hmem
      exact absurd hmem (Finset.not_mem_empty node)
    refine ⟨hxlt, hxres, hxnode, ?_⟩
    intro y hy
    rw [hde x hxlt] at hmem herase
    by_cases hyr : y ∈ result.toFinset
    · exact Finset.mem_union_left _ hyr
    · by_cases hyn : y = node
      · rw [hyn]
        exact Finset.mem_union_right _ (Finset.mem_singleton_self _)
      · exfalso
        have hyd : y ∈ (deps0 x \ result.toFinset).erase node :=
          Finset.mem_erase.mpr ⟨hyn, Finset.mem_sdiff.mpr ⟨hy, hyr⟩⟩
        rw [herase] at hyd
        exact absurd hyd (Finset.not_mem_empty y)
  have hrestfacts : ∀ x ∈ rest, x < n ∧ x ∉ result ∧ deps0 x ⊆ result.toFinset :=
    fun x hx => (hqc x).mp (hrestq x hx)
  refine ⟨?_, ?_, ?_, ?_, ?_, ?_⟩
  · rw [List.nodup_append]
    refine ⟨hrn, List.nodup_singleton node, fun a ha hb => ?_⟩
    rw [List.mem_singleton] at hb
    exact hnres (hb ▸ ha)
  · rw [List.nodup_append]
    refine ⟨hrestnd, ?_, ?_⟩
    · rw [processNode_snd]
      exact (List.nodup_range n).filter _
    · intro a ha hb
      obtain ⟨halt, hanres, hasub⟩ := hrestfacts a ha
      obtain ⟨_, hmem, _⟩ := (happ a).mp hb
      rw [hde a halt, Finset.sdiff_eq_empty_iff_subset.mpr hasub] at hmem
      exact absurd hmem (Finset.not_mem_empty node)
  · intro x hx
    rcases List.mem_append.mp hx with hx | hx
    · exact hrlt x hx
    · rw [List.mem_singleton.mp hx]
      exact hnlt
  · intro x
    rw [htf]
    constructor
    · intro hx
      rcases List.mem_append.mp hx with hx | hx
      · obtain ⟨hxlt, hxres, hxsub⟩ := hrestfacts x hx
        have hxnode : x ≠ node := fun he => hnr (he ▸ hx)
        refine ⟨hxlt, ?_, hxsub.trans (Finset.subset_union_left)⟩
        intro hmem
        rcases List.mem_append.mp hmem with h | h
        · exact hxres h
        · exact hxnode (List.mem_singleton.mp h)
      · obtain ⟨hxlt, hxres, hxnode, hxsub⟩ := happfacts x hx
        refine ⟨hxlt, ?_, hxsub⟩
        intro hmem
        rcases List.mem_append.mp hmem with h | h
        · exact hxres h
        · exact hxnode (List.mem_singleton.mp h)
    · rintro ⟨hxlt, hxmem, hxsub⟩
      have hxres : x ∉ result := fun h => hxmem (List.mem_append_left _ h)
      have hxnode : x ≠ node := fun h =>
        hxmem (List.mem_append_right _ (h ▸ List.mem_singleton_self x))
      by_cases hsub : deps0 x ⊆ result.toFinset
      · have hxq : x ∈ queue := (hqc x).mpr ⟨hxlt, hxres, hsub⟩
        have : x ∈ node :: rest := hperm.mem_iff.mpr hxq
        rcases List.mem_cons.mp this with h | h
        · exact absurd h hxnode
        · exact List.mem_append_left _ h
      · refine List.mem_append_right _ ((happ x).mpr ⟨hxlt, ?_, ?_⟩)
        · obtain ⟨y, hy, hyr⟩ := Finset.not_subset.mp hsub
          have hyn : y = node := by
            rcases Finset.mem_union.mp (hxsub hy) with h | h
            · exact absurd h hyr
            · exact Finset.mem_singleton.mp h
          rw [hde x hxlt]
          exact Finset.mem_sdiff.mpr ⟨hyn ▸ hy, hyn ▸ hyr⟩
        · rw [hde x hxlt]
          rw [Finset.eq_empty_iff_forall_not_mem]
          intro z hz
          obtain ⟨hzn, hzd⟩ := Finset.mem_erase.mp hz
          obtain ⟨hz0, hzr⟩ := Finset.mem_sdiff.mp hzd
          rcases Finset.mem_union.mp (hxsub hz0) with h | h
          · exact hzr h
          · exact hzn (Finset.mem_singleton.mp h)
  · intro x hxlt
    rw [processNode_fst, if_pos hxlt, hde x hxlt, htf, sdiff_union_singleton]
  · intro k
    have hk : (k : Nat) < result.length + 1 := by
      have h2 := k.2
      simpa using h2
    by_cases hkr : (k : Nat) < result.length
    · have hget : (result ++ [node]).get k = result.get ⟨k, hkr⟩ := by
        simp [List.get_eq_getElem, List.getElem_append_left, hkr]
      have htake : (result ++ [node]).take k = result.take k := by
        rw [List.take_append_eq_append_take]
        have h0 : (k : Nat) - result.length = 0 := by omega
        rw [h0]
        simp
      simp only [hget, htake]
      exact hg ⟨k, hkr⟩
    · have hkl : (k : Nat) = result.length := by omega
      have hget : (result ++ [node]).get k = node := by
        have := List.getElem_concat_length result node k hkl k.2
        simpa [← List.get_eq_getElem] using this
      have htake : (result ++ [node]).take k = result := by
        rw [hkl, List.take_left]
      simp only [hget, htake]
      exact hn0

/-- When the emitted list already has `n` entries, the invariant forces the
queue to be empty: the result is a duplicate-free list of `n` naturals below
`n`, so it exhausts `0..n-1`, and queued nodes are unemitted. -/
theorem KInv_queue_nil {n : Nat} {deps0 : Nat → Finset Nat}
    {queue result : List Nat} {deps : Nat → Finset Nat}
    (hI : KInv n deps0 queue result deps) (hlen : n ≤ result.length) :
    queue = [] := by
  obtain ⟨hrn, _, hrlt, hqc, _, _⟩ := hI
  have hsub : result.toFinset ⊆ Finset.range n := by
    intro x hx
    exact Finset.mem_range.mpr (hrlt x (List.mem_toFinset.mp hx))
  have hcard : (Finset.range n).card ≤ result.toFinset.card := by
    rw [Finset.card_range, List.toFinset_card_of_nodup hrn]
    exact hlen
  have heq : result.toFinset = Finset.range n :=
    Finset.eq_of_subset_of_card_le hsub hcard
  cases hq : queue with
  | nil => rfl
  | cons q qs =>
    exfalso
    have hqm : q ∈ queue := by rw [hq]; exact List.mem_cons_self q qs
    obtain ⟨hqlt, hqres, _⟩ := (hqc q).mp hqm
    apply hqres
    rw [← List.mem_toFinset, heq]
    exact Finset.mem_range.mpr hqlt

/-- Main correctness of the fuel-indexed loop: started in an invariant state
with enough fuel, it ends in an invariant state with an empty queue, emits
every queued node, and extends the emitted list. -/
theorem kahnLoop_spec (commits : List Commit) (deps0 : Nat → Finset Nat) :
    ∀ (fuel : Nat) (queue : List Nat) (deps : Nat → Finset Nat)
      (result : List Nat),
    KInv commits.length deps0 queue result deps →
    commits.length ≤ fuel + result.length →
    KInv commits.length deps0 [] (kahnLoop commits fuel queue deps result).1
        (kahnLoop commits fuel queue deps result).2 ∧
    (∀ x ∈ queue, x ∈ (kahnLoop commits fuel queue deps result).1) ∧
    result.IsPrefix (kahnLoop commits fuel queue deps result).1 := by
  intro fuel
  induction fuel with
  | zero =>
    intro queue deps result hI hlen
    have hq : queue = [] := KInv_queue_nil hI (by simpa using hlen)
    subst hq
    exact ⟨hI, by simp, List.prefix_refl _⟩
  | succ fuel ih =>
    intro queue deps result hI hlen
    cases hs : sortByKey (prio commits) queue with
    | nil =>
      have hq : queue = [] := by
        have hp : List.Perm queue (sortByKey (prio commits) queue) :=
          (sortByKey_perm (prio commits) queue).symm
        rw [hs] at hp
        exact hp.eq_nil
      subst hq
      exact ⟨hI, by simp, List.prefix_refl _⟩
    | cons node rest =>
      have hI' := KInv_step commits deps0 hI hs
      have hlen' : commits.length ≤ fuel + (result ++ [node]).length := by
        rw [List.length_append, List.length_singleton]
        omega
      obtain ⟨h1, h2, h3⟩ := ih
        (rest ++ (processNode commits.length node deps).2)
        (processNode commits.length node deps).1 (result ++ [node]) hI' hlen'
      have hred : kahnLoop commits (fuel + 1) queue deps result =
          kahnLoop commits fuel
            (rest ++ (processNode commits.length node deps).2)
            (processNode commits.length node deps).1 (result ++ [node]) := by
        simp only [kahnLoop, hs]
      rw [hred]
      refine ⟨h1, ?_, (List.prefix_append result [node]).trans h3⟩
      intro x hx
      have hxs : x ∈ node :: rest := by
        rw [← hs]
        exact (sortByKey_perm (prio commits) queue).mem_iff.mpr hx
      rcases List.mem_cons.mp hxs with rfl | hxr
      · exact h3.subset (List.mem_append_right _ (List.mem_singleton_self x))
      · exact h2 x (List.mem_append_left _ hxr)

/-- The initial state of `topological_sort` satisfies the invariant. -/
theorem KInv_init (n : Nat) (deps0 : Nat → Finset Nat) :
    KInv n deps0 ((List.range n).filter fun node => (deps0 node).card = 0)
      [] deps0 := by
  refine ⟨List.nodup_nil, (List.nodup_range n).filter _, by simp, ?_, by simp, ?_⟩
  · intro x
    constructor
    · intro hx
      obtain ⟨hxm, hxc⟩ := List.mem_filter.mp hx
      have hxr : x < n := List.mem_range.mp hxm
      have h0 : deps0 x = ∅ := Finset.card_eq_zero.mp (by simpa using hxc)
      exact ⟨hxr, List.not_mem_nil x, by simp [h0]⟩
    · rintro ⟨h1, _, h3⟩
      have h0 : deps0 x = ∅ := by
        rw [← Finset.subset_empty]
        simpa using h3
      refine List.mem_filter.mpr ⟨List.mem_range.mpr h1, by simp [h0]⟩
  · intro k
    exact absurd k.2 (by simp)

/-- Facts about a finished run of `topological_sort`: the emitted order is
duplicate-free and in range, a node whose predecessors were all emitted is
emitted, predecessors precede, and the returned map is the input map minus
the emitted nodes. -/
theorem topological_sort_final (commits : List Commit)
    (deps0 : Nat → Finset Nat) :
    (topological_sort commits deps0).1.Nodup ∧
    (∀ x ∈ (topological_sort commits deps0).1, x < commits.length) ∧
    (∀ x, x < commits.length →
      deps0 x ⊆ (topological_sort commits deps0).1.toFinset →
      x ∈ (topological_sort commits deps0).1) ∧
    (∀ k : Fin (topological_sort commits deps0).1.length,
      deps0 ((topological_sort commits deps0).1.get k) ⊆
        ((topological_sort commits deps0).1.take k).toFinset) ∧
    (∀ x, x < commits.length →
      (topological_sort commits deps0).2 x =
        deps0 x \ (topological_sort commits deps0).1.toFinset) := by
  obtain ⟨⟨hrn, _, hrlt, hqc, hde, hg⟩, _, _⟩ :=
    kahnLoop_spec commits deps0 commits.length
      ((List.range commits.length).filter fun node => (deps0 node).card = 0)
      deps0 [] (KInv_init commits.length deps0) (by simp)
  refine ⟨hrn, hrlt, ?_, hg, hde⟩
  intro x hx hsub
  by_contra hmem
  exact absurd ((hqc x).mpr ⟨hx, hmem, hsub⟩) (List.not_mem_nil x)

/-! ## Edge lists and emitted positions -/

theorem mem_depsOf {edges : List (Nat × Nat)} {p d : Nat} :
    p ∈ depsOf edges d ↔ (p, d) ∈ edges := by
  unfold depsOf
  rw [List.mem_toFinset, List.mem_map]
  constructor
  · rintro ⟨e, he, rfl⟩
    obtain ⟨hel, hed⟩ := List.mem_filter.mp he
    have hd : e.2 = d := by simpa using hed
    have : (e.1, d) = e := by
      rw [← hd]
    rw [this]
    exact hel
  · intro hm
    exact ⟨(p, d), List.mem_filter.mpr ⟨hm, by simp⟩, rfl⟩

theorem indexOf_lt_of_mem_take {l : List Nat} (hnd : l.Nodup) {p k : Nat}
    (hp : p ∈ l.take k) : l.indexOf p < k := by
  obtain ⟨m, hm⟩ := List.mem_iff_get.mp hp
  have hmin : (m : Nat) < min k l.length := by
    have h2 := m.2
    simpa [List.length_take] using h2
  have hmlen : (m : Nat) < l.length := lt_of_lt_of_le hmin (min_le_right _ _)
  have hmk : (m : Nat) < k := lt_of_lt_of_le hmin (min_le_left _ _)
  have hget : l.get ⟨m, hmlen⟩ = p := by
    rw [← hm]
    simp [List.get_eq_getElem, List.getElem_take]
  have hpl : p ∈ l := (List.take_sublist k l).subset hp
  have hidx : l.indexOf p < l.length := List.indexOf_lt_length.mpr hpl
  have heq : l.get ⟨l.indexOf p, hidx⟩ = l.get ⟨m, hmlen⟩ := by
    rw [List.indexOf_get hidx, hget]
  have : (⟨l.indexOf p, hidx⟩ : Fin l.length) = ⟨m, hmlen⟩ :=
    (hnd.get_inj_iff).mp heq
  have hval : l.indexOf p = (m : Nat) := congrArg Fin.val this
  omega

/-- When `topological_sort` emits as many positions as there are commits
(i.e. the run passes the cycle check), the emitted order covers every index
and respects every in-range edge. -/
theorem topoSort_success_facts (commits : List Commit)
    (edges : List (Nat × Nat))
    (hrange : ∀ e ∈ edges, e.1 < commits.length ∧ e.2 < commits.length)
    (hlen : (topological_sort commits (depsOf edges)).1.length = commits.length) :
    (∀ x, x < commits.length → x ∈ (topological_sort commits (depsOf edges)).1) ∧
    (∀ e ∈ edges, (topological_sort commits (depsOf edges)).1.indexOf e.1 <
      (topological_sort commits (depsOf edges)).1.indexOf e.2) := by
  obtain ⟨hrn, hrlt, _, hg, _⟩ := topological_sort_final commits (depsOf edges)
  have hall : ∀ x, x < commits.length →
      x ∈ (topological_sort commits (depsOf edges)).1 := by
    intro x hx
    have hsub : (topological_sort commits (depsOf edges)).1.toFinset ⊆
        Finset.range commits.length := by
      intro y hy
      exact Finset.mem_range.mpr (hrlt y (List.mem_toFinset.mp hy))
    have hcard : (Finset.range commits.length).card ≤
        (topological_sort commits (depsOf edges)).1.toFinset.card := by
      rw [Finset.card_range, List.toFinset_card_of_nodup hrn, hlen]
    have heq := Finset.eq_of_subset_of_card_le hsub hcard
    rw [← List.mem_toFinset, heq]
    exact Finset.mem_range.mpr hx
  refine ⟨hall, ?_⟩
  intro e he
  obtain ⟨hp, hd⟩ := hrange e he
  have hdm : e.2 ∈ (topological_sort commits (depsOf edges)).1 := hall _ hd
  have hkd : (topological_sort commits (depsOf edges)).1.indexOf e.2 <
      (topological_sort commits (depsOf edges)).1.length :=
    List.indexOf_lt_length.mpr hdm
  have hsubk := hg ⟨_, hkd⟩
  rw [List.indexOf_get hkd] at hsubk
  have hpm : e.1 ∈ (topological_sort commits (depsOf edges)).1.take
      ((topological_sort commits (depsOf edges)).1.indexOf e.2) := by
    rw [← List.mem_toFinset]
    apply hsubk
    rw [mem_depsOf]
    simpa using he
  exact indexOf_lt_of_mem_take hrn hpm

/-! ## Stability of the tie-break for initially-ready nodes -/

theorem kahnLoop_stable (commits : List Commit) (deps0 : Nat → Finset Nat)
    {i j : Nat} (hkey : prio commits i ≤ prio commits j) :
    ∀ (fuel : Nat) (queue : List Nat) (deps : Nat → Finset Nat)
      (result : List Nat),
    KInv commits.length deps0 queue result deps →
    commits.length ≤ fuel + result.length →
    (List.Sublist [i, j] queue ∨ (i ∈ result ∧ j ∈ queue) ∨
      List.Sublist [i, j] result) →
    List.Sublist [i, j] (kahnLoop commits fuel queue deps result).1 := by
  intro fuel
  induction fuel with
  | zero =>
    intro queue deps result hI hlen hD
    have hq : queue = [] := KInv_queue_nil hI (by simpa using hlen)
    subst hq
    rcases hD with h | h | h
    · exact absurd (List.sublist_nil.mp h) (by simp)
    · exact absurd h.2 (List.not_mem_nil j)
    · exact h
  | succ fuel ih =>
    intro queue deps result hI hlen hD
    cases hs : sortByKey (prio commits) queue with
    | nil =>
      have hq : queue = [] := by
        have hp : List.Perm queue (sortByKey (prio commits) queue) :=
          (sortByKey_perm (prio commits) queue).symm
        rw [hs] at hp
        exact hp.eq_nil
      subst hq
      rcases hD with h | h | h
      · exact absurd (List.sublist_nil.mp h) (by simp)
      · exact absurd h.2 (List.not_mem_nil j)
      · exact h
    | cons node rest =>
      have hI' := KInv_step commits deps0 hI hs
      have hlen' : commits.length ≤ fuel + (result ++ [node]).length := by
        rw [List.length_append, List.length_singleton]
        omega
      have hred : kahnLoop commits (fuel + 1) queue deps result =
          kahnLoop commits fuel
            (rest ++ (processNode commits.length node deps).2)
            (processNode commits.length node deps).1 (result ++ [node]) := by
        simp only [kahnLoop, hs]
      rw [hred]
      apply ih _ _ _ hI' hlen'
      rcases hD with hD1 | hD2 | hD3
      · have hst : List.Sublist [i, j] (node :: rest) := by
          rw [← hs]
          exact sortByKey_stable_pair (prio commits) hkey hD1
        cases hst with
        | cons _ h =>
          exact Or.inl (h.trans (List.sublist_append_left rest _))
        | cons₂ _ h =>
          refine Or.inr (Or.inl ⟨?_, ?_⟩)
          · exact List.mem_append_right _ (List.mem_singleton_self i)
          · exact List.mem_append_left _ (List.singleton_sublist.mp h)
      · obtain ⟨hir, hjq⟩ := hD2
        have hjs : j ∈ node :: rest := by
          rw [← hs]
          exact ((sortByKey_perm (prio commits) queue).mem_iff).mpr hjq
        rcases List.mem_cons.mp hjs with rfl | hjr
        · refine Or.inr (Or.inr ?_)
          have h1 : List.Sublist [i] result := List.singleton_sublist.mpr hir
          have h2 := List.Sublist.append h1 (List.Sublist.refl [j])
          simpa using h2
        · exact Or.inr (Or.inl
            ⟨List.mem_append_left _ hir, List.mem_append_left _ hjr⟩)
      · exact Or.inr (Or.inr (hD3.trans (List.sublist_append_left result [node])))

/-! ## Claim theorems for the sequencer -/

/-- C1: for every list of commit descriptors and every acyclic set of
dependency edges over the indices 0..N-1 (acyclicity witnessed by a ranking
that every edge strictly increases), `topological_sort` terminates normally
(in particular the cycle check passes and `topoSortChecked` returns the
order), and the emitted order is a permutation of 0..N-1 in which, for every
edge (p, d), the position of p is strictly below the position of d. -/
theorem sequence_total_order (commits : List Commit) (edges : List (Nat × Nat))
    (hrange : ∀ e ∈ edges, e.1 < commits.length ∧ e.2 < commits.length)
    (hacyc : ∃ rank : Nat → Nat, ∀ e ∈ edges, rank e.1 < rank e.2) :
    List.Perm (topological_sort commits (depsOf edges)).1
      (List.range commits.length) ∧
    (∀ e ∈ edges, (topological_sort commits (depsOf edges)).1.indexOf e.1 <
      (topological_sort commits (depsOf edges)).1.indexOf e.2) ∧
    topoSortChecked commits (depsOf edges) =
      .ok (topological_sort commits (depsOf edges)).1 := by
  obtain ⟨rank, hrank⟩ := hacyc
  obtain ⟨hrn, hrlt, hclosed, _, _⟩ := topological_sort_final commits (depsOf edges)
  have hall : ∀ x, x < commits.length →
      x ∈ (topological_sort commits (depsOf edges)).1 := by
    by_contra hnot
    push_neg at hnot
    obtain ⟨x0, hx0lt, hx0⟩ := hnot
    have hx0S : x0 ∈ (Finset.range commits.length).filter
        (fun y => y ∉ (topological_sort commits (depsOf edges)).1) :=
      Finset.mem_filter.mpr ⟨Finset.mem_range.mpr hx0lt, hx0⟩
    obtain ⟨m, hmS, hmin⟩ := Finset.exists_min_image _ rank ⟨x0, hx0S⟩
    obtain ⟨hmrange, hmres⟩ := Finset.mem_filter.mp hmS
    have hmlt := Finset.mem_range.mp hmrange
    have hnsub : ¬ depsOf edges m ⊆
        (topological_sort commits (depsOf edges)).1.toFinset :=
      fun hsub => hmres (hclosed m hmlt hsub)
    obtain ⟨p, hp, hpr⟩ := Finset.not_subset.mp hnsub
    have hpedge : (p, m) ∈ edges := mem_depsOf.mp hp
    have hplt : p < commits.length := (hrange _ hpedge).1
    have hpres : p ∉ (topological_sort commits (depsOf edges)).1 :=
      fun h => hpr (List.mem_toFinset.mpr h)
    have hpS : p ∈ (Finset.range commits.length).filter
        (fun y => y ∉ (topological_sort commits (depsOf edges)).1) :=
      Finset.mem_filter.mpr ⟨Finset.mem_range.mpr hplt, hpres⟩
    have h1 : rank m ≤ rank p := hmin p hpS
    have h2 : rank p < rank m := hrank _ hpedge
    omega
  have htfeq : (topological_sort commits (depsOf edges)).1.toFinset =
      (List.range commits.length).toFinset := by
    apply Finset.Subset.antisymm
    · intro y hy
      rw [List.mem_toFinset] at hy ⊢
      exact List.mem_range.mpr (hrlt y hy)
    · intro y hy
      rw [List.mem_toFinset] at hy ⊢
      exact hall y (List.mem_range.mp hy)
  have hperm : List.Perm (topological_sort commits (depsOf edges)).1
      (List.range commits.length) :=
    List.perm_of_nodup_nodup_toFinset_eq hrn (List.nodup_range _) htfeq
  have hlen : (topological_sort commits (depsOf edges)).1.length =
      commits.length := by
    have h := hperm.length_eq
    simpa using h
  refine ⟨hperm, (topoSort_success_facts commits edges hrange hlen).2, ?_⟩
  simp [topoSortChecked, hlen]

/-- C1 witness: three descriptors chained by the edges (0,1) and (1,2); the
identity ranking certifies acyclicity, and the conclusion is evaluated at the
edge (0,1). -/
theorem sequence_total_order_witness :
    List.Perm (topological_sort commitsW (depsOf edgesW)).1 (List.range 3) ∧
    (topological_sort commitsW (depsOf edgesW)).1.indexOf 0 <
      (topological_sort commitsW (depsOf edgesW)).1.indexOf 1 := by
  have h := sequence_total_order commitsW edgesW (by decide)
    ⟨fun x => x, by decide⟩
  exact ⟨h.1, h.2.1 (0, 1) (by decide)⟩

/-- C2 (amended): for every in-range edge set containing a cycle, the
sequencer fails: the emitted order cannot cover all indices, so the cycle
check of lines 168-171 fires and the run aborts with the fixed message
"Error: Circular dependency detected"; no Plan is returned. -/
theorem sequence_cycle_error (commits : List Commit) (edges : List (Nat × Nat))
    (hrange : ∀ e ∈ edges, e.1 < commits.length ∧ e.2 < commits.length)
    (hcyc : ∃ x, Relation.TransGen (fun a b => (a, b) ∈ edges) x x) :
    topoSortChecked commits (depsOf edges) = .error circularErr := by
  obtain ⟨x, hx⟩ := hcyc
  have hne : (topological_sort commits (depsOf edges)).1.length ≠
      commits.length := by
    intro hlen
    have hord := (topoSort_success_facts commits edges hrange hlen).2
    have hmono : ∀ a b, Relation.TransGen (fun a b => (a, b) ∈ edges) a b →
        (topological_sort commits (depsOf edges)).1.indexOf a <
          (topological_sort commits (depsOf edges)).1.indexOf b := by
      intro a b h
      induction h with
      | single h1 => exact hord _ h1
      | tail _ h2 ih => exact lt_trans ih (hord _ h2)
    exact lt_irrefl _ (hmono x x hx)
  simp [topoSortChecked, hne]

/-- C2 witness: the two-cycle (0,1), (1,0) over two descriptors. -/
theorem sequence_cycle_error_witness :
    topoSortChecked commitsA2 (depsOf [(0, 1), (1, 0)]) = .error circularErr := by
  apply sequence_cycle_error
  · decide
  · have h01 : (fun a b => (a, b) ∈ [(0, 1), (1, 0)]) 0 1 := by decide
    have h10 : (fun a b => (a, b) ∈ [(0, 1), (1, 0)]) 1 0 := by decide
    exact ⟨0, Relation.TransGen.tail (Relation.TransGen.single h01) h10⟩

/-- C2 counterexample to the reporting part of the claim: a two-descriptor
cycle (unassigned index set 0,1) and a three-descriptor cycle (unassigned
index set 0,1,2) produce the identical error value, so the failure report
does not carry the set of descriptor indices that were not assigned a
position; the sequencer prints one fixed message for every cycle. -/
theorem cycle_error_not_informative :
    topoSortChecked commitsA2 (depsOf [(0, 1), (1, 0)]) =
      topoSortChecked commitsB3 (depsOf [(0, 1), (1, 2), (2, 0)]) ∧
    ((List.range 2).filter fun x =>
      x ∉ (topological_sort commitsA2 (depsOf [(0, 1), (1, 0)])).1) = [0, 1] ∧
    ((List.range 3).filter fun x =>
      x ∉ (topological_sort commitsB3 (depsOf [(0, 1), (1, 2), (2, 0)])).1) =
      [0, 1, 2] := by
  decide

/-- C3 counterexample: three descriptors of equal type priority (all feat)
where descriptor 0 depends on descriptor 1.  The initial ready queue is
[1, 2]; emitting 1 appends 0, so 0 and 2 are then simultaneously in the
ready queue with equal priority, yet the code emits 2 before 0 because its
stable sort keeps the queue insertion order within equal priorities.  The
emitted order is [1, 2, 0], not [1, 0, 2] as index tie-breaking would
demand. -/
theorem tie_break_not_by_index :
    (topological_sort commitsC3 deps0C3).1 = [1, 2, 0] ∧
    prio commitsC3 0 = prio commitsC3 2 ∧
    deps0C3 0 = {1} ∧ deps0C3 2 = ∅ ∧
    (processNode 3 1 deps0C3).2 = [0] ∧
    (topological_sort commitsC3 deps0C3).1.indexOf 2 <
      (topological_sort commitsC3 deps0C3).1.indexOf 0 := by
  decide

/-- C3 (amended): ties within equal type priority are broken by the order in
which descriptors entered the ready queue, not by original index; since the
initial queue enumerates indices ascending, two descriptors of equal
priority that are both ready at the start (empty dependency sets) are
emitted with the smaller index first. -/
theorem tie_break_initial_ready (commits : List Commit)
    (deps0 : Nat → Finset Nat) (i j : Nat) (hij : i < j)
    (hjn : j < commits.length) (hkey : prio commits i = prio commits j)
    (hdi : deps0 i = ∅) (hdj : deps0 j = ∅) :
    List.Sublist [i, j] (topological_sort commits deps0).1 := by
  have hD : List.Sublist [i, j]
      ((List.range commits.length).filter fun node => (deps0 node).card = 0) := by
    have h1 : List.Sublist [i, j] (List.range commits.length) :=
      pair_sublist_range hij hjn
    have h2 := h1.filter (fun node => decide ((deps0 node).card = 0))
    have h3 : List.filter (fun node => decide ((deps0 node).card = 0)) [i, j] =
        [i, j] := by
      simp [List.filter, hdi, hdj]
    rw [h3] at h2
    exact h2
  exact kahnLoop_stable commits deps0 (le_of_eq hkey) commits.length _ deps0 []
    (KInv_init commits.length deps0) (by simp) (Or.inl hD)

/-- C3 witness: two feature descriptors with no dependencies; 0 precedes 1
in the emitted order. -/
theorem tie_break_initial_ready_witness :
    List.Sublist [0, 1] (topological_sort commitsTW (fun _ => ∅)).1 :=
  tie_break_initial_ready commitsTW (fun _ => ∅) 0 1 (by decide) (by decide)
    rfl rfl rfl

/-- C10: sequencing destructively consumes the dependency map.  When
`topological_sort` succeeds on an in-range graph (emits as many positions as
there are commits), the map it hands back records the empty set for every
node: the original predecessor sets cannot be recovered from it.  This is
the dict that `create_sequence` consults afterwards for its annotations. -/
theorem topological_sort_empties_graph (commits : List Commit)
    (deps0 : Nat → Finset Nat)
    (hrange : ∀ x, x < commits.length → deps0 x ⊆ Finset.range commits.length)
    (hsucc : (topological_sort commits deps0).1.length = commits.length)
    (x : Nat) (hx : x < commits.length) :
    (topological_sort commits deps0).2 x = ∅ := by
  obtain ⟨hrn, hrlt, _, _, hde⟩ := topological_sort_final commits deps0
  have hsub : (topological_sort commits deps0).1.toFinset ⊆
      Finset.range commits.length := by
    intro y hy
    exact Finset.mem_range.mpr (hrlt y (List.mem_toFinset.mp hy))
  have hcard : (Finset.range commits.length).card ≤
      (topological_sort commits deps0).1.toFinset.card := by
    rw [Finset.card_range, List.toFinset_card_of_nodup hrn, hsucc]
  have heq := Finset.eq_of_subset_of_card_le hsub hcard
  rw [hde x hx, heq]
  exact Finset.sdiff_eq_empty_iff_subset.mpr (hrange x hx)

/-- C10 witness: the feat/test pair with the edge (0, 1); after the sort,
node 1 has lost its recorded predecessor 0. -/
theorem topological_sort_empties_graph_witness :
    (topological_sort commits8 deps8).2 1 = ∅ := by
  apply topological_sort_empties_graph commits8 deps8
  · intro x hx
    have hx2 : x = 0 ∨ x = 1 := by
      simp [commits8] at hx
      omega
    rcases hx2 with rfl | rfl <;> decide
  · decide
  · decide

/-! ## The graph builder never reports contradictions: fold lemmas -/

theorem addEdgeStep_mono (gitShow : String → String) (commits : List Commit)
    {i : Nat} {g g1 : Nat → Finset Nat} {j : Nat}
    (h : addEdgeStep gitShow commits i g j = .ok g1) :
    ∀ x s, s ∈ g x → s ∈ g1 x := by
  unfold addEdgeStep at h
  by_cases hij : i = j
  · rw [if_pos hij] at h
    cases h
    intro x s hs
    exact hs
  · rw [if_neg hij] at h
    cases hd : detect_dependencies gitShow (commits.getD i default)
        (commits.getD j default) with
    | error e => rw [hd] at h; cases h
    | ok b =>
      rw [hd] at h
      cases b with
      | true =>
        cases h
        intro x s hs
        by_cases hx : x = j
        · simp only [hx] at hs ⊢
          simp [hs]
        · simp [hx, hs]
      | false =>
        cases h
        intro x s hs
        exact hs

theorem buildInnerFold_mono (gitShow : String → String) (commits : List Commit)
    (i : Nat) :
    ∀ (js : List Nat) (g0 g : Nat → Finset Nat),
    js.foldlM (addEdgeStep gitShow commits i) g0 = .ok g →
    ∀ x s, s ∈ g0 x → s ∈ g x := by
  intro js
  induction js with
  | nil =>
    intro g0 g h
    rw [List.foldlM_nil] at h
    cases h
    intro x s hs
    exact hs
  | cons j js ih =>
    intro g0 g h
    rw [List.foldlM_cons] at h
    cases h1 : addEdgeStep gitShow commits i g0 j with
    | error e => rw [h1] at h; cases h
    | ok g1 =>
      rw [h1] at h
      intro x s hs
      exact ih g1 g h x s (addEdgeStep_mono gitShow commits h1 x s hs)

theorem buildInnerFold_covers (gitShow : String → String) (commits : List Commit)
    (i : Nat) :
    ∀ (js : List Nat) (g0 g : Nat → Finset Nat) (j : Nat),
    js.foldlM (addEdgeStep gitShow commits i) g0 = .ok g →
    j ∈ js → i ≠ j →
    detect_dependencies gitShow (commits.getD i default)
      (commits.getD j default) = .ok true →
    i ∈ g j := by
  intro js
  induction js with
  | nil =>
    intro g0 g j _ hj
    cases hj
  | cons j0 js ih =>
    intro g0 g j h hj hij hdet
    rw [List.foldlM_cons] at h
    cases h1 : addEdgeStep gitShow commits i g0 j0 with
    | error e => rw [h1] at h; cases h
    | ok g1 =>
      rw [h1] at h
      rcases List.mem_cons.mp hj with rfl | hj2
      · have hg1 : i ∈ g1 j := by
          unfold addEdgeStep at h1
          rw [if_neg hij, hdet] at h1
          cases h1
          simp
        exact buildInnerFold_mono gitShow commits i js g1 g h j i hg1
      · exact ih g1 g j h hj2 hij hdet

theorem buildOuter_mono (gitShow : String → String) (commits : List Commit) :
    ∀ (is : List Nat) (g0 g : Nat → Finset Nat),
    is.foldlM (fun g i => buildInner gitShow commits i g) g0 = .ok g →
    ∀ x s, s ∈ g0 x → s ∈ g x := by
  intro is
  induction is with
  | nil =>
    intro g0 g h
    rw [List.foldlM_nil] at h
    cases h
    intro x s hs
    exact hs
  | cons i0 is ih =>
    intro g0 g h
    rw [List.foldlM_cons] at h
    cases h1 : buildInner gitShow commits i0 g0 with
    | error e => rw [h1] at h; cases h
    | ok g1 =>
      rw [h1] at h
      intro x s hs
      exact ih g1 g h x s
        (buildInnerFold_mono gitShow commits i0 _ g0 g1 h1 x s hs)

theorem buildOuter_covers (gitShow : String → String) (commits : List Commit)
    {i j : Nat} (hj : j < commits.length) (hij : i ≠ j)
    (hdet : detect_dependencies gitShow (commits.getD i default)
      (commits.getD j default) = .ok true) :
    ∀ (is : List Nat) (g0 g : Nat → Finset Nat),
    is.foldlM (fun g i => buildInner gitShow commits i g) g0 = .ok g →
    i ∈ is → i ∈ g j := by
  intro is
  induction is with
  | nil =>
    intro g0 g _ hi
    cases hi
  | cons i0 is ih =>
    intro g0 g h hi
    rw [List.foldlM_cons] at h
    cases h1 : buildInner gitShow commits i0 g0 with
    | error e => rw [h1] at h; cases h
    | ok g1 =>
      rw [h1] at h
      rcases List.mem_cons.mp hi with rfl | hi2
      · have hg1 : i ∈ g1 j :=
          buildInnerFold_covers gitShow commits i _ g0 g1 j h1
            (List.mem_range.mpr hj) hij hdet
        exact buildOuter_mono gitShow commits is g1 g h j i hg1
      · exact ih g1 g h hi2

/-- C4 (amended): `build_dependency_graph` has no contradiction check.  When
the heuristics derive a dependency in both directions between two distinct
in-range descriptors and the build returns (no TypeError was raised), the
returned edge set contains both edges; nothing fails and nothing is
resolved. -/
theorem build_keeps_both_edges (gitShow : String → String)
    (commits : List Commit) (i j : Nat) (g : Nat → Finset Nat)
    (hi : i < commits.length) (hj : j < commits.length) (hij : i ≠ j)
    (hdij : detect_dependencies gitShow (commits.getD i default)
      (commits.getD j default) = .ok true)
    (hdji : detect_dependencies gitShow (commits.getD j default)
      (commits.getD i default) = .ok true)
    (hok : build_dependency_graph gitShow commits = .ok g) :
    i ∈ g j ∧ j ∈ g i := by
  unfold build_dependency_graph at hok
  constructor
  · exact buildOuter_covers gitShow commits hj hij hdij _ _ g hok
      (List.mem_range.mpr hi)
  · exact buildOuter_covers gitShow commits hi (Ne.symm hij) hdji _ _ g hok
      (List.mem_range.mpr hj)

/-- C4 witness: two chore descriptors whose staged files import each other;
the import heuristic derives both directions, the build returns, and both
edges are present. -/
theorem build_keeps_both_edges_witness : 0 ∈ gCE 1 ∧ 1 ∈ gCE 0 := by
  have h := build_keeps_both_edges showCE [cc0, cc1] 0 1 gCE (by decide)
    (by decide) (by decide) (by decide) (by decide) rfl
  exact h

/-- C4 counterexample to the claim as stated: on the mutual-import pair,
`build_dependency_graph` does not fail with any contradiction error; it
returns successfully, and the returned map contains the edge (1, 0) as well
as the edge (0, 1). -/
theorem build_no_contradictory_edge_error :
    (build_dependency_graph showCE [cc0, cc1]).map (fun g => (g 0, g 1)) =
      .ok ({1}, {0}) := by
  decide

/-! ## Keys of the grouping dicts -/

theorem keysOf_addToGroup (m : List (String × List String)) (k v : String) :
    keysOf (addToGroup m k v) =
      if k ∈ keysOf m then keysOf m else keysOf m ++ [k] := by
  induction m with
  | nil => simp [addToGroup, keysOf]
  | cons p rest ih =>
    obtain ⟨k0, vs⟩ := p
    by_cases h : k0 = k
    · subst h
      simp [addToGroup, keysOf]
    · have hne : ¬ k = k0 := fun he => h he.symm
      simp only [addToGroup, if_neg h]
      simp only [keysOf, List.map_cons] at ih ⊢
      rw [ih]
      by_cases h2 : k ∈ List.map Prod.fst rest
      · rw [if_pos h2, if_pos (List.mem_cons.mpr (Or.inr h2))]
      · rw [if_neg h2, if_neg (by simp [List.mem_cons, hne, h2])]
        simp

theorem mem_keysOf_addToGroup (m : List (String × List String)) (k v x : String) :
    x ∈ keysOf (addToGroup m k v) ↔ x ∈ keysOf m ∨ x = k := by
  rw [keysOf_addToGroup]
  by_cases h : k ∈ keysOf m
  · rw [if_pos h]
    constructor
    · exact Or.inl
    · rintro (hx | rfl)
      · exact hx
      · exact h
  · rw [if_neg h]
    simp

theorem nodup_keysOf_addToGroup {m : List (String × List String)}
    (hm : (keysOf m).Nodup) (k v : String) :
    (keysOf (addToGroup m k v)).Nodup := by
  rw [keysOf_addToGroup]
  by_cases h : k ∈ keysOf m
  · rw [if_pos h]
    exact hm
  · rw [if_neg h]
    rw [List.nodup_append]
    refine ⟨hm, List.nodup_singleton k, fun a ha hb => ?_⟩
    rw [List.mem_singleton] at hb
    exact h (hb ▸ ha)

theorem groupFold_keys_nodup (key : String → String) :
    ∀ (files : List String) (acc : List (String × List String)),
    (keysOf acc).Nodup →
    (keysOf (files.foldl (fun m f => addToGroup m (key f) f) acc)).Nodup := by
  intro files
  induction files with
  | nil => intro acc h; exact h
  | cons f fs ih =>
    intro acc h
    exact ih (addToGroup acc (key f) f) (nodup_keysOf_addToGroup h (key f) f)

theorem groupFold_keys_mem (key : String → String) :
    ∀ (files : List String) (acc : List (String × List String)) (x : String),
    x ∈ keysOf (files.foldl (fun m f => addToGroup m (key f) f) acc) ↔
      x ∈ keysOf acc ∨ x ∈ files.map key := by
  intro files
  induction files with
  | nil => intro acc x; simp
  | cons f fs ih =>
    intro acc x
    rw [List.foldl_cons, ih (addToGroup acc (key f) f) x,
      mem_keysOf_addToGroup]
    simp only [List.map_cons, List.mem_cons]
    tauto

theorem collectGroups_fst (diffOf : String → String) :
    ∀ (files : List String)
      (acc : List (String × List String) × List (String × List String)),
    (files.foldl
      (fun acc f =>
        (addToGroup acc.1 (detect_type_from_diff f (diffOf f)) f,
         addToGroup acc.2 (extract_scope_from_path f) f)) acc).1 =
    files.foldl
      (fun m f => addToGroup m (detect_type_from_diff f (diffOf f)) f) acc.1 := by
  intro files
  induction files with
  | nil => intro acc; rfl
  | cons f fs ih => intro acc; exact ih _

theorem collectGroups_snd (diffOf : String → String) :
    ∀ (files : List String)
      (acc : List (String × List String) × List (String × List String)),
    (files.foldl
      (fun acc f =>
        (addToGroup acc.1 (detect_type_from_diff f (diffOf f)) f,
         addToGroup acc.2 (extract_scope_from_path f) f)) acc).2 =
    files.foldl
      (fun m f => addToGroup m (extract_scope_from_path f) f) acc.2 := by
  intro files
  induction files with
  | nil => intro acc; rfl
  | cons f fs ih => intro acc; exact ih _

theorem collect_types_keys_perm (diffOf : String → String)
    {l1 l2 : List String} (hp : List.Perm l1 l2) :
    List.Perm (keysOf (collectGroups diffOf l1).1)
      (keysOf (collectGroups diffOf l2).1) := by
  unfold collectGroups
  rw [collectGroups_fst diffOf l1 ([], []), collectGroups_fst diffOf l2 ([], [])]
  apply List.perm_of_nodup_nodup_toFinset_eq
  · exact groupFold_keys_nodup _ l1 [] (by simp [keysOf])
  · exact groupFold_keys_nodup _ l2 [] (by simp [keysOf])
  · apply Finset.ext
    intro x
    rw [List.mem_toFinset, List.mem_toFinset,
      groupFold_keys_mem _ l1 [] x, groupFold_keys_mem _ l2 [] x]
    have := (hp.map fun f => detect_type_from_diff f (diffOf f)).mem_iff
      (a := x)
    simp only [keysOf, List.map_nil, List.not_mem_nil, false_or]
    exact this

theorem collect_scopes_keys_perm (diffOf : String → String)
    {l1 l2 : List String} (hp : List.Perm l1 l2) :
    List.Perm (keysOf (collectGroups diffOf l1).2)
      (keysOf (collectGroups diffOf l2).2) := by
  unfold collectGroups
  rw [collectGroups_snd diffOf l1 ([], []), collectGroups_snd diffOf l2 ([], [])]
  apply List.perm_of_nodup_nodup_toFinset_eq
  · exact groupFold_keys_nodup _ l1 [] (by simp [keysOf])
  · exact groupFold_keys_nodup _ l2 [] (by simp [keysOf])
  · apply Finset.ext
    intro x
    rw [List.mem_toFinset, List.mem_toFinset,
      groupFold_keys_mem _ l1 [] x, groupFold_keys_mem _ l2 [] x]
    have := (hp.map extract_scope_from_path).mem_iff (a := x)
    simp only [keysOf, List.map_nil, List.not_mem_nil, false_or]
    exact this

theorem perm_any {l1 l2 : List String} (hp : List.Perm l1 l2)
    (p : String → Bool) : l1.any p = l2.any p := by
  rw [Bool.eq_iff_iff, List.any_eq_true, List.any_eq_true]
  constructor
  · rintro ⟨x, hx, hpx⟩
    exact ⟨x, hp.mem_iff.mp hx, hpx⟩
  · rintro ⟨x, hx, hpx⟩
    exact ⟨x, hp.mem_iff.mpr hx, hpx⟩

theorem detect_mixed_concerns_congr {t1 t2 s1 s2 : List (String × List String)}
    (ht : ∀ x, x ∈ keysOf t1 ↔ x ∈ keysOf t2)
    (hs : List.Perm (keysOf s1) (keysOf s2)) :
    detect_mixed_concerns t1 s1 = detect_mixed_concerns t2 s2 := by
  unfold detect_mixed_concerns
  rw [perm_any hs (fun s => strContains s "test"),
    perm_any hs (fun s => !(strContains s "test"))]
  simp only [ht]

/-! ## Claim theorems for the classifier and the builder -/

/-- C9 (amended): the split-or-not verdict of `classify` (including whether
it crashes with the mixed-concern TypeError) is invariant under the
enumeration order of the changed-file set, because the type set, the scope
set, the file count and the concern conditions are order-independent; the
reported type/scope/reason texts themselves are not order-independent (see
the counterexample), so only the verdict component of the output is
bit-identical across enumeration orders. -/
theorem classify_verdict_perm_invariant (diffOf : String → String)
    (threshold : Nat) (l1 l2 : List String) (hp : List.Perm l1 l2) :
    (analyze diffOf threshold l1).map (fun x => x.1) =
      (analyze diffOf threshold l2).map (fun x => x.1) := by
  by_cases h1 : l1 = []
  · subst h1
    have h2 : l2 = [] := hp.symm.eq_nil
    rw [h2]
  · have h2 : l2 ≠ [] := fun he => h1 ((he ▸ hp).eq_nil)
    have hkt := collect_types_keys_perm diffOf hp
    have hks := collect_scopes_keys_perm diffOf hp
    have htmem : ∀ x, x ∈ keysOf (collectGroups diffOf l1).1 ↔
        x ∈ keysOf (collectGroups diffOf l2).1 := fun x => hkt.mem_iff
    have hmc : detect_mixed_concerns (collectGroups diffOf l1).1
        (collectGroups diffOf l1).2 =
        detect_mixed_concerns (collectGroups diffOf l2).1
          (collectGroups diffOf l2).2 :=
      detect_mixed_concerns_congr htmem hks
    have hlt : (collectGroups diffOf l1).1.length =
        (collectGroups diffOf l2).1.length := by
      have h := hkt.length_eq
      simpa [keysOf] using h
    have hls : (collectGroups diffOf l1).2.length =
        (collectGroups diffOf l2).2.length := by
      have h := hks.length_eq
      simpa [keysOf] using h
    have hlf : l1.length = l2.length := hp.length_eq
    simp only [analyze, if_neg h1, if_neg h2]
    rw [hmc]
    cases hdm : detect_mixed_concerns (collectGroups diffOf l2).1
        (collectGroups diffOf l2).2 with
    | error e => rfl
    | ok concerns =>
      simp only [Except.map]
      rw [hlt, hls, hlf]
      by_cases c1 : (collectGroups diffOf l2).1.length > 1 <;>
        by_cases c2 : (collectGroups diffOf l2).2.length > 1 <;>
        by_cases c3 : l2.length > threshold <;>
        by_cases c4 : concerns ≠ [] <;>
        simp [c1, c2, c3, c4]

/-- C9 witness: the two enumeration orders of the two-file set; the verdict
components of the two runs agree. -/
theorem classify_verdict_perm_invariant_witness :
    (analyze showNil 10 files9a).map (fun x => x.1) =
      (analyze showNil 10 files9b).map (fun x => x.1) :=
  classify_verdict_perm_invariant showNil 10 files9a files9b (by decide)

/-- C9 counterexample to bit-identical outputs: the same changed-file set
enumerated in the two orders a Python string set may yield (string hashing
is randomized across processes) produces different outputs, because the
reason strings and the metrics lists report types and scopes in first-seen
order ("docs, chore" against "chore, docs"). -/
theorem classify_output_order_dependent :
    List.Perm files9a files9b ∧
    analyze showNil 10 files9a ≠ analyze showNil 10 files9b := by
  decide

/-- C5: the claim says `build` is total, but `detect_dependencies` crashes
on the docs-after-feature rule when the feature descriptor has no scope:
line 88 of commit-planner.py evaluates `None in <subject string>`,
a TypeError.  The build of these two descriptors returns that error rather
than an edge set. -/
theorem build_crashes_on_unset_scope :
    build_dependency_graph showNil [c5a, c5b] = .error typeErrNone := rfl

/-- C6 (amended): on Scenario A the classifier does infer the single scope
"auth" and the type pair feat/test, but it does not return
`should_split = false`: because a test-typed file is present,
`detect_mixed_concerns` builds a set of path lists (lines 166-167 of
split-analyzer.py) and dies with a TypeError, so classify returns no verdict
at all. -/
theorem scenarioA_classify_crashes :
    collectGroups diffA filesA =
      ([("feat", ["src/auth/login.ts"]), ("test", ["src/auth/login.test.ts"])],
       [("auth", ["src/auth/login.ts", "src/auth/login.test.ts"])]) ∧
    analyze diffA 10 filesA = .error typeErrList := by
  decide

/-- C6 counterexample: classify does not return `should_split = false` on
Scenario A (it does not return at all). -/
theorem scenarioA_not_no_split :
    verdictOf (analyze diffA 10 filesA) ≠ some false := by
  decide

/-- C7: the claim promises a verdict for every non-empty change set, but any
change set containing a test-typed file makes `detect_mixed_concerns` hash a
list of paths (lines 166-167 of split-analyzer.py), raising a TypeError: on
the single test file below, classify crashes instead of returning
`should_split = false`. -/
theorem classify_crashes_on_test_files :
    analyze showNil 10 ["auth/login.test.ts"] = .error typeErrList := by
  decide

/-- C8: `create_sequence` consults the dependency dict after
`topological_sort` emptied it, so every emitted descriptor is annotated
"now", including descriptor 1, which has the incoming edge (0, 1) and should
be annotated with the position of its predecessor ("after commit 1") by the
claim; the predecessor branch of lines 197-199 is unreachable. -/
theorem annotations_all_now :
    (create_sequence showNil commits8).map
      (List.map fun e => (e.original_id, e.can_execute)) =
      .ok [(0, "now"), (1, "now")] := by
  decide
